import Mathlib

set_option maxRecDepth 8000

/-
  Verification development for the txmsg-r transaction-message scanner.

  The repository contains two variants of the same Go program:
    variant A (main.go): UTF-8 codepoint decoding, a 4-byte function-signature
      filter, and a strict classifier (letter-ratio plus vowel checks);
    variant B (the second, unnamed file): raw ASCII byte-range filtering,
      no signature filter, and a light classifier (word count and letters only).

  Modelling conventions:
  - Go strings are modelled as lists of Unicode code points (List Nat);
    byte slices as lists of byte values (List Nat, each < 256).
  - Go standard-library character predicates backed by large Unicode tables
    (unicode.IsPrint, unicode.IsLetter, unicode.IsNumber, unicode.ToLower)
    are taken as parameters of the definitions that use them; the small,
    fully enumerable tables unicode.IsSpace and unicode.IsControl are
    modelled exactly.
  - Go's float64 comparison float64(letterCount)/float64(totalChars) >= 0.6
    is modelled by the exact rational comparison 3*totalChars <= 5*letterCount
    guarded by a zero test (0.0/0.0 is NaN in Go and NaN >= 0.6 is false);
    for counts below 2^50 the two comparisons agree.
-/

/-- Configuration constants shared by the two variants (main.go lines 22-28,
the unnamed variant lines 20-25 and 117-120). -/
def scanDepth : Nat := 100

/-- Minimum candidate-message length (both variants). -/
def minMsgLength : Nat := 4

/-- Minimum valid-word byte length (both variants). -/
def minWordLength : Nat := 3

/-- Minimum word count and minimum valid-word count (both variants). -/
def minWords : Nat := 2

/-- Go unicode.IsSpace, exact: the Latin-1 white space characters together
with the finite White_Space table above Latin-1. -/
def goIsSpace (r : Nat) : Bool :=
  decide (r = 9 ∨ r = 10 ∨ r = 11 ∨ r = 12 ∨ r = 13 ∨ r = 32 ∨ r = 0x85 ∨
    r = 0xA0 ∨ r = 0x1680 ∨ (0x2000 ≤ r ∧ r ≤ 0x200A) ∨ r = 0x2028 ∨
    r = 0x2029 ∨ r = 0x202F ∨ r = 0x205F ∨ r = 0x3000)

/-- Go unicode.IsControl, exact: category Cc is contained in Latin-1 and
IsControl is false above Latin-1. -/
def goIsControl (r : Nat) : Bool :=
  decide (r < 0x20 ∨ (0x7F ≤ r ∧ r ≤ 0x9F))

/-- Helper for strings.Fields: scan the rune list, splitting at runs of
goIsSpace runes; cur holds the current word reversed. -/
def fieldsAux : List Nat → List Nat → List (List Nat)
  | [], cur => if cur = [] then [] else [cur.reverse]
  | r :: rest, cur =>
    if goIsSpace r then
      if cur = [] then fieldsAux rest [] else cur.reverse :: fieldsAux rest []
    else fieldsAux rest (r :: cur)

/-- Go strings.Fields: the maximal runs of non-white-space runes. -/
def fields (rs : List Nat) : List (List Nat) := fieldsAux rs []

/-- Go strings.Join(words, " "): interleave a single space (32) between
consecutive words. -/
def joinSp : List (List Nat) → List Nat
  | [] => []
  | [w] => w
  | w :: ws => w ++ 32 :: joinSp ws

/-- The whitespace clean-up strings.Join(strings.Fields(s), " ") that both
decoding strategies apply last. -/
def normalizeSp (rs : List Nat) : List Nat := joinSp (fields rs)

/-- ASCII printable range bounds (unnamed variant lines 23-24). -/
def asciiPrintable : Nat := 32

/-- Upper bound of the ASCII printable range. -/
def asciiMax : Nat := 126

/-- filterPrintable (unnamed variant lines 90-100): keep bytes in the
printable ASCII range, replace every other byte by a space, then collapse
and trim white space. -/
def filterPrintable (data : List Nat) : List Nat :=
  normalizeSp (data.map (fun b => if asciiPrintable ≤ b ∧ b ≤ asciiMax then b else 32))

/-- First-continuation-byte acceptance ranges of Go's utf8.DecodeRune
(the acceptRanges table): E0 shrinks the low end, ED the high end (excluding
surrogates), F0 and F4 bound the 4-byte range to U+10000..U+10FFFF. -/
def accept1 (b0 b1 : Nat) : Bool :=
  if b0 = 0xE0 then decide (0xA0 ≤ b1 ∧ b1 ≤ 0xBF)
  else if b0 = 0xED then decide (0x80 ≤ b1 ∧ b1 ≤ 0x9F)
  else if b0 = 0xF0 then decide (0x90 ≤ b1 ∧ b1 ≤ 0xBF)
  else if b0 = 0xF4 then decide (0x80 ≤ b1 ∧ b1 ≤ 0x8F)
  else decide (0x80 ≤ b1 ∧ b1 ≤ 0xBF)

/-- Go utf8.DecodeRune: returns the first rune and its encoded size; on an
empty input (RuneError, 0); on any invalid, overlong, surrogate or truncated
encoding (RuneError, 1). RuneError is U+FFFD. -/
def utf8DecodeRune : List Nat → Nat × Nat
  | [] => (0xFFFD, 0)
  | b0 :: rest =>
    if b0 < 0x80 then (b0, 1)
    else if b0 < 0xC2 then (0xFFFD, 1)
    else if b0 < 0xE0 then
      match rest with
      | b1 :: _ =>
        if 0x80 ≤ b1 ∧ b1 ≤ 0xBF then ((b0 - 0xC0) * 64 + (b1 - 0x80), 2)
        else (0xFFFD, 1)
      | [] => (0xFFFD, 1)
    else if b0 < 0xF0 then
      match rest with
      | b1 :: b2 :: _ =>
        if accept1 b0 b1 = true ∧ 0x80 ≤ b2 ∧ b2 ≤ 0xBF then
          (((b0 - 0xE0) * 64 + (b1 - 0x80)) * 64 + (b2 - 0x80), 3)
        else (0xFFFD, 1)
      | _ => (0xFFFD, 1)
    else if b0 < 0xF5 then
      match rest with
      | b1 :: b2 :: b3 :: _ =>
        if accept1 b0 b1 = true ∧ 0x80 ≤ b2 ∧ b2 ≤ 0xBF ∧ 0x80 ≤ b3 ∧ b3 ≤ 0xBF then
          ((((b0 - 0xF0) * 64 + (b1 - 0x80)) * 64 + (b2 - 0x80)) * 64 + (b3 - 0x80), 4)
        else (0xFFFD, 1)
      | _ => (0xFFFD, 1)
    else (0xFFFD, 1)

/-- Standard UTF-8 encoding of one Unicode scalar value (Go
utf8.EncodeRune / the byte representation of a Go string). -/
def utf8EncodeRune (r : Nat) : List Nat :=
  if r < 0x80 then [r]
  else if r < 0x800 then [0xC0 + r / 64, 0x80 + r % 64]
  else if r < 0x10000 then [0xE0 + r / 4096, 0x80 + r / 64 % 64, 0x80 + r % 64]
  else [0xF0 + r / 262144, 0x80 + r / 4096 % 64, 0x80 + r / 64 % 64, 0x80 + r % 64]

/-- Byte representation of a string given as a rune list. -/
def encodeBytes : List Nat → List Nat
  | [] => []
  | r :: rs => utf8EncodeRune r ++ encodeBytes rs

/-- Unicode scalar values: code points minus the surrogate range. -/
def ValidScalar (r : Nat) : Prop := r < 0xD800 ∨ (0xE000 ≤ r ∧ r ≤ 0x10FFFF)

/-- The scanning loop of decodeUTF8 (main.go lines 150-160): decode a rune;
on RuneError advance one byte without output, otherwise keep the rune when
printable and advance by its size. The fuel argument bounds the number of
iterations; every iteration consumes at least one byte, so fuel equal to the
input length computes the loop exactly. -/
def decodeLoopF (p : Nat → Bool) : Nat → List Nat → List Nat
  | 0, _ => []
  | _ + 1, [] => []
  | fuel + 1, b :: rest =>
    if (utf8DecodeRune (b :: rest)).1 = 0xFFFD then decodeLoopF p fuel rest
    else if p (utf8DecodeRune (b :: rest)).1 then
      (utf8DecodeRune (b :: rest)).1 ::
        decodeLoopF p fuel ((b :: rest).drop (utf8DecodeRune (b :: rest)).2)
    else decodeLoopF p fuel ((b :: rest).drop (utf8DecodeRune (b :: rest)).2)

/-- decodeUTF8 (main.go lines 148-162), parametric in the printability
predicate p standing for unicode.IsPrint. -/
def decodeUTF8 (p : Nat → Bool) (data : List Nat) : List Nat :=
  normalizeSp (decodeLoopF p data.length data)

/-- Hex digit characters as produced by encoding/hex (lower case). -/
def hexDigit (n : Nat) : Char :=
  Char.ofNat (if n < 10 then 48 + n else 87 + n)

/-- encoding/hex.EncodeToString on a byte list. -/
def hexEncode (bytes : List Nat) : String :=
  String.mk (bytes.flatMap (fun b => [hexDigit (b / 16), hexDigit (b % 16)]))

/-- The Signature Table (main.go lines 32-43): known 4-byte function
signatures, hex encoded, with their labels. -/
def functionSignatures : List (String × String) :=
  [("a9059cbb", "ERC20 transfer"),
   ("23b872dd", "ERC20 transferFrom"),
   ("095ea7b3", "ERC20 approve"),
   ("42842e0e", "ERC721 safeTransferFrom"),
   ("b88d4fde", "ERC721 safeTransferFrom with data"),
   ("a22cb465", "setApprovalForAll"),
   ("6352211e", "ownerOf (ERC721)"),
   ("70a08231", "balanceOf"),
   ("06fdde03", "name()"),
   ("95d89b41", "symbol()")]

/-- isContractCall (main.go lines 138-145): data of length at least 4 whose
first 4 bytes, hex encoded, are a key of the Signature Table. -/
def isContractCall (data : List Nat) : Bool :=
  if data.length < 4 then false
  else functionSignatures.any (fun kv => kv.1 = hexEncode (data.take 4))

/-- Length of the initial run of class characters. -/
def takeRun (c : Nat → Bool) : List Nat → Nat
  | [] => 0
  | r :: t => if c r then takeRun c t + 1 else 0

/-- Start positions of maximal runs of class characters. -/
def runStarts (c : Nat → Bool) (rs : List Nat) : List Nat :=
  (List.range rs.length).filter
    (fun i => c (rs.getD i 0) && (decide (i = 0) || !c (rs.getD (i - 1) 0)))

/-- Length of the run beginning at position i. -/
def runLen (c : Nat → Bool) (rs : List Nat) (i : Nat) : Nat :=
  takeRun c (rs.drop i)

/-- Candidate Extractor spans: regexp.FindAllString with the pattern of one
character class repeated at least minMsgLength times (main.go line 72 with
Longest(), the unnamed variant line 55) returns exactly the maximal runs of
class characters of length at least minMsgLength; each span is a start
position paired with the run length. -/
def msgSpans (c : Nat → Bool) (rs : List Nat) : List (Nat × Nat) :=
  ((runStarts c rs).map (fun i => (i, runLen c rs i))).filter
    (fun s => decide (minMsgLength ≤ s.2))

/-- The candidate substrings returned by FindAllString. -/
def msgMatches (c : Nat → Bool) (rs : List Nat) : List (List Nat) :=
  (msgSpans c rs).map (fun s => (rs.drop s.1).take s.2)

/-- A span (i, k) is a maximal run: nonempty, inside the string, all its
characters in the class, and not extendable on either side. -/
def isMaximalRun (c : Nat → Bool) (rs : List Nat) (s : Nat × Nat) : Bool :=
  decide (0 < s.2) && decide (s.1 + s.2 ≤ rs.length) &&
  ((rs.drop s.1).take s.2).all c &&
  (decide (s.1 + s.2 = rs.length) || !c (rs.getD (s.1 + s.2) 0)) &&
  (decide (s.1 = 0) || !c (rs.getD (s.1 - 1) 0))

/-- Character class of the variant A pattern, one rune of it written
as a class of letters, numbers and space in the source; iL stands for
unicode.IsLetter, iN for unicode.IsNumber; the third disjunct is the RE2
Perl class matching tab, newline, form feed, carriage return and space. -/
def classA (iL iN : Nat → Bool) (r : Nat) : Bool :=
  iL r || iN r || decide (r = 9 ∨ r = 10 ∨ r = 12 ∨ r = 13 ∨ r = 32)

/-- Character class of the variant B pattern: ASCII letters, digits
and the space character. -/
def classB (r : Nat) : Bool :=
  decide ((97 ≤ r ∧ r ≤ 122) ∨ (65 ≤ r ∧ r ≤ 90) ∨ (48 ≤ r ∧ r ≤ 57) ∨ r = 32)

/-- Byte length of one rune inside a Go string (utf8.RuneLen for scalars). -/
def runeLen (r : Nat) : Nat :=
  if r < 0x80 then 1 else if r < 0x800 then 2 else if r < 0x10000 then 3 else 4

/-- Go len(word): the byte length of the word. -/
def byteLen (w : List Nat) : Nat := (w.map runeLen).sum

/-- hasLetters (both variants): at least one letter rune. -/
def hasLetters (iL : Nat → Bool) (w : List Nat) : Bool := w.any iL

/-- hasVowel (main.go lines 209-217): unicode.ToLower of some rune is one of
a, e, i, o, u; tL stands for unicode.ToLower. -/
def hasVowel (tL : Nat → Nat) (w : List Nat) : Bool :=
  w.any (fun r => decide (tL r = 97 ∨ tL r = 101 ∨ tL r = 105 ∨ tL r = 111 ∨ tL r = 117))

/-- A valid word of the strict variant (main.go line 191): byte length at
least minWordLength, at least one letter, at least one vowel. -/
def isValidWordA (iL : Nat → Bool) (tL : Nat → Nat) (w : List Nat) : Bool :=
  decide (minWordLength ≤ byteLen w) && hasLetters iL w && hasVowel tL w

/-- hasValidWords (main.go lines 188-196): at least minWords valid words. -/
def hasValidWords (iL : Nat → Bool) (tL : Nat → Nat) (words : List (List Nat)) : Bool :=
  decide (minWords ≤ words.countP (isValidWordA iL tL))

/-- The letter count of isValidMessage (main.go lines 171-175). -/
def letterCount (iL : Nat → Bool) (s : List Nat) : Nat := s.countP iL

/-- The non-white-space character count of isValidMessage (main.go
lines 176-179). -/
def totalChars (s : List Nat) : Nat := s.countP (fun r => !goIsSpace r)

/-- The comparison float64(letterCount)/float64(totalChars) >= 0.6 of
main.go line 182, modelled exactly over the integers: a zero denominator
gives NaN in Go and NaN >= 0.6 is false; otherwise the comparison is
letterCount/totalChars >= 3/5. -/
def ratioCheck (iL : Nat → Bool) (s : List Nat) : Bool :=
  if totalChars s = 0 then false
  else decide (3 * totalChars s ≤ 5 * letterCount iL s)

/-- isValidMessage (main.go lines 165-184): reject fewer than minWords
words, then require the letter ratio and hasValidWords. -/
def isValidMessage (iL : Nat → Bool) (tL : Nat → Nat) (s : List Nat) : Bool :=
  if (fields s).length < minWords then false
  else ratioCheck iL s && hasValidWords iL tL (fields s)

/-- A valid word of the light variant (unnamed variant line 130): byte
length at least minWordLength and at least one letter. -/
def isValidWordB (iL : Nat → Bool) (w : List Nat) : Bool :=
  decide (minWordLength ≤ byteLen w) && hasLetters iL w

/-- isMeaningful (unnamed variant lines 122-136): reject fewer than minWords
words, then require at least minWords valid words. -/
def isMeaningful (iL : Nat → Bool) (s : List Nat) : Bool :=
  if (fields s).length < minWords then false
  else decide (minWords ≤ (fields s).countP (isValidWordB iL))

/-- The candidate list computed by analyzeTransaction of variant A
(main.go lines 115-126): empty data and known contract calls are skipped
before decoding; otherwise FindAllString over the decoded text. -/
def analyzeCandidatesA (iP iL iN : Nat → Bool) (data : List Nat) : List (List Nat) :=
  if data = [] || isContractCall data then []
  else msgMatches (classA iL iN) (decodeUTF8 iP data)

/-- analyzeTransaction of variant A (main.go lines 115-135): the candidates
that pass isValidMessage. -/
def analyzeTransactionA (iP iL iN : Nat → Bool) (tL : Nat → Nat) (data : List Nat) :
    List (List Nat) :=
  (analyzeCandidatesA iP iL iN data).filter (fun m => isValidMessage iL tL m)

/-- The candidate list computed by analyzeTransaction of variant B (unnamed
variant lines 77-88): only empty data is skipped; no signature filter. -/
def analyzeCandidatesB (data : List Nat) : List (List Nat) :=
  if data = [] then [] else msgMatches classB (filterPrintable data)

/-- The candidates of variant B that pass isMeaningful (the ones printed by
printResults). -/
def acceptedB (iL : Nat → Bool) (data : List Nat) : List (List Nat) :=
  (analyzeCandidatesB data).filter (fun m => isMeaningful iL m)

/-- A transaction as the scanner consumes it: hash, optional destination
address (none for contract creation) and payload bytes. -/
structure Tx where
  hash : String
  dest : Option String
  data : List Nat
deriving DecidableEq

/-- Observable events of the scan: fetch attempts, the per-block fetch
error log line, and the printed report lines. Every event carries the block
number it was emitted for. -/
inductive Event where
  | fetched (n : Int)
  | fetchFailed (n : Int)
  | blockHeader (n : Int)
  | txReport (n : Int) (h : String) (msgs : List (List Nat))
  | txInfo (n : Int) (h : String) (dest : String)
  | msgLine (n : Int) (msg : List Nat)
deriving DecidableEq

deriving instance DecidableEq for Except

/-- The block number an event belongs to. -/
def eventBlock : Event → Int
  | .fetched n => n
  | .fetchFailed n => n
  | .blockHeader n => n
  | .txReport n _ _ => n
  | .txInfo n _ _ => n
  | .msgLine n _ => n

/-- The per-transaction report accumulation of processBlock of variant A
(main.go lines 92-103): one txReport per transaction with accepted
messages. -/
def blockReports (iP iL iN : Nat → Bool) (tL : Nat → Nat) (n : Int)
    (txs : List Tx) : List Event :=
  txs.filterMap (fun tx =>
    if analyzeTransactionA iP iL iN tL tx.data = [] then none
    else some (Event.txReport n tx.hash (analyzeTransactionA iP iL iN tL tx.data)))

/-- processBlock of variant A (main.go lines 84-112): fetch the block; on
error log once and return; otherwise collect one report per transaction
with accepted messages and print a single block header when any exists. -/
def processBlockA (iP iL iN : Nat → Bool) (tL : Nat → Nat)
    (fetch : Int → Except String (List Tx)) (n : Int) : List Event :=
  match fetch n with
  | .error _ => [.fetched n, .fetchFailed n]
  | .ok txs =>
    .fetched n ::
      (if blockReports iP iL iN tL n txs = [] then []
       else Event.blockHeader n :: blockReports iP iL iN tL n txs)

/-- The descending block range of variant A's main loop (main.go line 76):
endBlock, endBlock-1, ..., startBlock. -/
def descRange (endB startB : Int) : List Int :=
  if startB ≤ endB then
    (List.range (endB - startB + 1).toNat).map (fun i : Nat => endB - (i : Int))
  else []

/-- The whole scan of variant A: every block of the descending range in
order. -/
def scanA (iP iL iN : Nat → Bool) (tL : Nat → Nat)
    (fetch : Int → Except String (List Tx)) (endB startB : Int) : List Event :=
  (descRange endB startB).flatMap (processBlockA iP iL iN tL fetch)

/-- The message loop of printResults (unnamed variant lines 102-115): print
the header block (which dereferences tx.To()) before the first meaningful
message. A none destination makes tx.To().Hex() a nil-pointer dereference,
modelled as Except.error. -/
def printLoopB (iL : Nat → Bool) (n : Int) (tx : Tx) :
    List (List Nat) → Bool → Except Unit (List Event)
  | [], _ => .ok []
  | m :: t, shown =>
    if isMeaningful iL m then
      if shown then
        match printLoopB iL n tx t true with
        | .error e => .error e
        | .ok rest => .ok (Event.msgLine n m :: rest)
      else
        match tx.dest with
        | none => .error ()
        | some d =>
          match printLoopB iL n tx t true with
          | .error e => .error e
          | .ok rest => .ok (Event.txInfo n tx.hash d :: Event.msgLine n m :: rest)
    else printLoopB iL n tx t shown

/-- printResults (unnamed variant lines 102-115). -/
def printResultsB (iL : Nat → Bool) (n : Int) (tx : Tx) (msgs : List (List Nat)) :
    Except Unit (List Event) :=
  printLoopB iL n tx msgs false

/-- analyzeTransaction of variant B (unnamed variant lines 77-88). -/
def analyzeTransactionB (iL : Nat → Bool) (n : Int) (tx : Tx) :
    Except Unit (List Event) :=
  if tx.data = [] then .ok []
  else
    if msgMatches classB (filterPrintable tx.data) = [] then .ok []
    else printResultsB iL n tx (msgMatches classB (filterPrintable tx.data))

/-- The per-transaction loop of processBlock of variant B. -/
def txLoopB (iL : Nat → Bool) (n : Int) : List Tx → Except Unit (List Event)
  | [] => .ok []
  | tx :: t =>
    match analyzeTransactionB iL n tx with
    | .error e => .error e
    | .ok evs =>
      match txLoopB iL n t with
      | .error e => .error e
      | .ok rest => .ok (evs ++ rest)

/-- processBlock of variant B (unnamed variant lines 64-75): on fetch error
log once and return; otherwise analyze every transaction. -/
def processBlockB (iL : Nat → Bool) (fetch : Int → Except String (List Tx))
    (n : Int) : Except Unit (List Event) :=
  match fetch n with
  | .error _ => .ok [.fetched n, .fetchFailed n]
  | .ok txs =>
    match txLoopB iL n txs with
    | .error e => .error e
    | .ok evs => .ok (.fetched n :: evs)

/-- The scan loop of variant B over a given block-number order; a panic
inside a block aborts the whole process. -/
def scanB (iL : Nat → Bool) (fetch : Int → Except String (List Tx)) :
    List Int → Except Unit (List Event)
  | [] => .ok []
  | n :: t =>
    match processBlockB iL fetch n with
    | .error e => .error e
    | .ok evs =>
      match scanB iL fetch t with
      | .error e => .error e
      | .ok rest => .ok (evs ++ rest)

/-- No two adjacent white-space characters. -/
def noDoubleSpace : List Nat → Bool
  | a :: b :: t => !(goIsSpace a && goIsSpace b) && noDoubleSpace (b :: t)
  | _ => true

/-- The first character, when present, is not white space. -/
def noLeadSpace (rs : List Nat) : Bool := !goIsSpace (rs.headD 65)

/-- Last element of a list, or the default for an empty list. -/
def lastD : List Nat → Nat → Nat
  | [], d => d
  | [a], _ => a
  | _ :: b :: t, d => lastD (b :: t) d

/-- The last character, when present, is not white space. -/
def noTrailSpace (rs : List Nat) : Bool := !goIsSpace (lastD rs 65)

/-- No control characters at all. -/
def noControl (rs : List Nat) : Bool := rs.all (fun r => !goIsControl r)

/-- Concrete stand-in for unicode.IsLetter, exact on ASCII (every witness
and counterexample below evaluates it on ASCII text only). -/
def asciiLetter (r : Nat) : Bool :=
  decide ((65 ≤ r ∧ r ≤ 90) ∨ (97 ≤ r ∧ r ≤ 122))

/-- Concrete stand-in for unicode.IsNumber, exact on ASCII. -/
def asciiNum (r : Nat) : Bool := decide (48 ≤ r ∧ r ≤ 57)

/-- Concrete stand-in for unicode.ToLower, exact on ASCII. -/
def asciiToLower (r : Nat) : Nat := if 65 ≤ r ∧ r ≤ 90 then r + 32 else r

/-- Concrete stand-in for unicode.IsPrint, exact on ASCII. -/
def asciiPrint (r : Nat) : Bool := decide (32 ≤ r ∧ r ≤ 126)

/-- Rune list of a Lean string literal, for concrete inputs. -/
def strRunes (s : String) : List Nat := s.data.map Char.toNat

/- Lemmas about strings.Fields and strings.Join. -/

theorem fieldsAux_good (rs : List Nat) : ∀ (cur : List Nat),
    (∀ c ∈ cur, goIsSpace c = false) →
    ∀ w ∈ fieldsAux rs cur, w ≠ [] ∧ ∀ c ∈ w, goIsSpace c = false ∧ (c ∈ rs ∨ c ∈ cur) := by
  induction rs with
  | nil =>
    intro cur hcur w hw
    simp only [fieldsAux] at hw
    split at hw
    · simp at hw
    · next hne =>
      simp only [List.mem_singleton] at hw
      subst hw
      refine ⟨by simpa using hne, ?_⟩
      intro c hc
      rw [List.mem_reverse] at hc
      exact ⟨hcur c hc, Or.inr hc⟩
  | cons r rest ih =>
    intro cur hcur w hw
    simp only [fieldsAux] at hw
    by_cases hs : goIsSpace r
    · rw [if_pos hs] at hw
      by_cases hc : cur = []
      · rw [if_pos hc] at hw
        rcases ih [] (by simp) w hw with ⟨h1, h2⟩
        refine ⟨h1, fun c hcw => ?_⟩
        rcases h2 c hcw with ⟨hsp, hin | hin⟩
        · exact ⟨hsp, Or.inl (List.mem_cons_of_mem r hin)⟩
        · simp at hin
      · rw [if_neg hc] at hw
        rcases List.mem_cons.mp hw with hval | hw'
        · subst hval
          refine ⟨by simpa using hc, fun c hcw => ?_⟩
          rw [List.mem_reverse] at hcw
          exact ⟨hcur c hcw, Or.inr hcw⟩
        · rcases ih [] (by simp) w hw' with ⟨h1, h2⟩
          refine ⟨h1, fun c hcw => ?_⟩
          rcases h2 c hcw with ⟨hsp, hin | hin⟩
          · exact ⟨hsp, Or.inl (List.mem_cons_of_mem r hin)⟩
          · simp at hin
    · rw [if_neg hs] at hw
      have hcur' : ∀ c ∈ r :: cur, goIsSpace c = false := by
        intro c hc
        rcases List.mem_cons.mp hc with rfl | hc
        · simpa using hs
        · exact hcur c hc
      rcases ih (r :: cur) hcur' w hw with ⟨h1, h2⟩
      refine ⟨h1, fun c hcw => ?_⟩
      rcases h2 c hcw with ⟨hsp, hin | hin⟩
      · exact ⟨hsp, Or.inl (List.mem_cons_of_mem r hin)⟩
      · rcases List.mem_cons.mp hin with h | hc
        · exact ⟨hsp, Or.inl (h ▸ List.mem_cons_self _ _)⟩
        · exact ⟨hsp, Or.inr hc⟩

theorem fields_good (rs : List Nat) :
    ∀ w ∈ fields rs, w ≠ [] ∧ ∀ c ∈ w, goIsSpace c = false ∧ c ∈ rs := by
  intro w hw
  rcases fieldsAux_good rs [] (by simp) w hw with ⟨h1, h2⟩
  refine ⟨h1, fun c hc => ?_⟩
  rcases h2 c hc with ⟨hsp, hin | hin⟩
  · exact ⟨hsp, hin⟩
  · simp at hin

theorem joinSp_mem : ∀ (ws : List (List Nat)) (c : Nat),
    c ∈ joinSp ws → c = 32 ∨ ∃ w ∈ ws, c ∈ w := by
  intro ws
  induction ws with
  | nil => intro c hc; simp [joinSp] at hc
  | cons w ws ih =>
    intro c hc
    cases ws with
    | nil =>
      simp only [joinSp] at hc
      exact Or.inr ⟨w, by simp, hc⟩
    | cons w' t =>
      simp only [joinSp, List.mem_append, List.mem_cons] at hc
      rcases hc with hc | hc | hc
      · exact Or.inr ⟨w, by simp, hc⟩
      · exact Or.inl hc
      · rcases ih c hc with h32 | ⟨u, hu, hcu⟩
        · exact Or.inl h32
        · exact Or.inr ⟨u, List.mem_cons_of_mem w hu, hcu⟩

theorem fieldsAux_word : ∀ (w rs cur : List Nat),
    (∀ c ∈ w, goIsSpace c = false) →
    fieldsAux (w ++ rs) cur = fieldsAux rs (w.reverse ++ cur) := by
  intro w
  induction w with
  | nil => intro rs cur _; simp
  | cons c w' ih =>
    intro rs cur hw
    have hc : goIsSpace c = false := hw c (List.mem_cons_self c w')
    simp only [List.cons_append, fieldsAux, hc]
    rw [if_neg (by simp [hc])]
    show fieldsAux (w' ++ rs) (c :: cur) = fieldsAux rs ((c :: w').reverse ++ cur)
    rw [ih rs (c :: cur) (fun d hd => hw d (List.mem_cons_of_mem c hd))]
    simp

theorem fieldsAux_sep : ∀ (xs ys cur : List Nat),
    fieldsAux (xs ++ 32 :: ys) cur = fieldsAux xs cur ++ fieldsAux ys [] := by
  intro xs
  induction xs with
  | nil =>
    intro ys cur
    simp only [List.nil_append, fieldsAux]
    have h32 : goIsSpace 32 = true := by decide
    rw [if_pos h32]
    by_cases hc : cur = []
    · simp [hc]
    · simp [hc]
  | cons r xs ih =>
    intro ys cur
    simp only [List.cons_append, fieldsAux]
    by_cases hs : goIsSpace r
    · rw [if_pos hs, if_pos hs]
      by_cases hc : cur = []
      · simp [hc, ih]
      · simp [hc, ih]
    · rw [if_neg hs, if_neg hs]
      show fieldsAux (xs ++ 32 :: ys) (r :: cur) = fieldsAux xs (r :: cur) ++ fieldsAux ys []
      rw [ih]

theorem fields_single (w : List Nat) (hne : w ≠ [])
    (hsp : ∀ c ∈ w, goIsSpace c = false) : fields w = [w] := by
  have h := fieldsAux_word w [] [] hsp
  rw [List.append_nil] at h
  unfold fields
  rw [h]
  simp only [fieldsAux, List.append_nil]
  rw [if_neg (by simpa using hne)]
  simp

theorem fields_joinSp : ∀ (ws : List (List Nat)),
    (∀ w ∈ ws, w ≠ [] ∧ ∀ c ∈ w, goIsSpace c = false) →
    fields (joinSp ws) = ws := by
  intro ws
  induction ws with
  | nil => intro _; simp [joinSp, fields, fieldsAux]
  | cons w ws ih =>
    intro hgood
    cases ws with
    | nil =>
      simp only [joinSp]
      rcases hgood w (by simp) with ⟨h1, h2⟩
      exact fields_single w h1 h2
    | cons w' t =>
      simp only [joinSp]
      unfold fields
      rw [fieldsAux_sep]
      rcases hgood w (by simp) with ⟨h1, h2⟩
      have hs : fieldsAux w [] = [w] := fields_single w h1 h2
      rw [hs]
      have ht : fields (joinSp (w' :: t)) = w' :: t :=
        ih (fun u hu => hgood u (List.mem_cons_of_mem w hu))
      unfold fields at ht
      rw [ht]
      simp

theorem normalizeSp_idem (rs : List Nat) : normalizeSp (normalizeSp rs) = normalizeSp rs := by
  unfold normalizeSp
  rw [fields_joinSp (fields rs) (fun w hw => ⟨(fields_good rs w hw).1,
    fun c hc => ((fields_good rs w hw).2 c hc).1⟩)]

theorem normalizeSp_mem (rs : List Nat) (c : Nat) (hc : c ∈ normalizeSp rs) :
    c = 32 ∨ (c ∈ rs ∧ goIsSpace c = false) := by
  unfold normalizeSp at hc
  rcases joinSp_mem (fields rs) c hc with h32 | ⟨w, hw, hcw⟩
  · exact Or.inl h32
  · rcases (fields_good rs w hw).2 c hcw with ⟨hsp, hin⟩
    exact Or.inr ⟨hin, hsp⟩

theorem noDouble_cons (a : Nat) (l : List Nat) (ha : goIsSpace a = false)
    (hl : noDoubleSpace l = true) : noDoubleSpace (a :: l) = true := by
  cases l with
  | nil => rfl
  | cons b t => simp [noDoubleSpace, ha, hl]

theorem noDouble_words (w rest : List Nat) (hw : ∀ c ∈ w, goIsSpace c = false)
    (hr : noDoubleSpace rest = true) : noDoubleSpace (w ++ rest) = true := by
  induction w with
  | nil => simpa using hr
  | cons c w' ih =>
    rw [List.cons_append]
    exact noDouble_cons c (w' ++ rest)
      (hw c (List.mem_cons_self c w'))
      (ih (fun d hd => hw d (List.mem_cons_of_mem c hd)))

theorem joinSp_cons_ne (w : List Nat) (ws : List (List Nat)) (h : ws ≠ []) :
    joinSp (w :: ws) = w ++ 32 :: joinSp ws := by
  cases ws with
  | nil => exact absurd rfl h
  | cons w' t => rfl

theorem joinSp_nd_head : ∀ (ws : List (List Nat)),
    (∀ w ∈ ws, w ≠ [] ∧ ∀ c ∈ w, goIsSpace c = false) →
    noDoubleSpace (joinSp ws) = true ∧ goIsSpace ((joinSp ws).headD 65) = false := by
  intro ws
  induction ws with
  | nil => exact fun _ => ⟨rfl, by decide⟩
  | cons w ws ih =>
    intro hgood
    rcases hgood w (by simp) with ⟨hne, hsp⟩
    have hgood' : ∀ u ∈ ws, u ≠ [] ∧ ∀ c ∈ u, goIsSpace c = false :=
      fun u hu => hgood u (List.mem_cons_of_mem w hu)
    cases ws with
    | nil =>
      constructor
      · simpa using noDouble_words w [] hsp rfl
      · obtain ⟨c, w', rfl⟩ : ∃ c w', w = c :: w' := by
          cases w with
          | nil => exact absurd rfl hne
          | cons c w' => exact ⟨c, w', rfl⟩
        simpa [joinSp] using hsp c (by simp)
    | cons w' t =>
      rcases ih hgood' with ⟨ihnd, ihhd⟩
      have hJne : joinSp (w' :: t) ≠ [] := by
        rcases hgood' w' (by simp) with ⟨hne', _⟩
        cases t with
        | nil => simpa [joinSp] using hne'
        | cons u t' => simp [joinSp, hne']
      constructor
      · rw [joinSp_cons_ne w (w' :: t) (by simp)]
        refine noDouble_words w _ hsp ?_
        obtain ⟨b, t'', hJ⟩ : ∃ b t'', joinSp (w' :: t) = b :: t'' := by
          cases hJJ : joinSp (w' :: t) with
          | nil => exact absurd hJJ hJne
          | cons b t'' => exact ⟨b, t'', rfl⟩
        rw [hJ]
        have hb : goIsSpace b = false := by
          have := ihhd
          rw [hJ] at this
          simpa using this
        have : noDoubleSpace (b :: t'') = true := by rw [← hJ]; exact ihnd
        simp [noDoubleSpace, hb, this]
      · rw [joinSp_cons_ne w (w' :: t) (by simp)]
        obtain ⟨c, w'', rfl⟩ : ∃ c w'', w = c :: w'' := by
          cases w with
          | nil => exact absurd rfl hne
          | cons c w'' => exact ⟨c, w'', rfl⟩
        simpa using hsp c (by simp)

theorem lastD_append_ne : ∀ (xs ys : List Nat) (d : Nat), ys ≠ [] →
    lastD (xs ++ ys) d = lastD ys d := by
  intro xs
  induction xs with
  | nil => intro ys d _; rfl
  | cons x xs ih =>
    intro ys d hy
    have hne : xs ++ ys ≠ [] := by simp [hy]
    obtain ⟨b, t, hbt⟩ : ∃ b t, xs ++ ys = b :: t := by
      cases h : xs ++ ys with
      | nil => exact absurd h hne
      | cons b t => exact ⟨b, t, rfl⟩
    rw [List.cons_append, hbt]
    show lastD (b :: t) d = lastD ys d
    rw [← hbt, ih ys d hy]

theorem lastD_mem : ∀ (l : List Nat) (d : Nat), l ≠ [] → lastD l d ∈ l := by
  intro l
  induction l with
  | nil => intro d h; exact absurd rfl h
  | cons a t ih =>
    intro d _
    cases t with
    | nil => simp [lastD]
    | cons b t' =>
      show lastD (b :: t') d ∈ a :: b :: t'
      exact List.mem_cons_of_mem a (ih d (by simp))

theorem joinSp_trail : ∀ (ws : List (List Nat)),
    (∀ w ∈ ws, w ≠ [] ∧ ∀ c ∈ w, goIsSpace c = false) →
    goIsSpace (lastD (joinSp ws) 65) = false := by
  intro ws
  induction ws with
  | nil => intro _; decide
  | cons w ws ih =>
    intro hgood
    rcases hgood w (by simp) with ⟨hne, hsp⟩
    have hgood' : ∀ u ∈ ws, u ≠ [] ∧ ∀ c ∈ u, goIsSpace c = false :=
      fun u hu => hgood u (List.mem_cons_of_mem w hu)
    cases ws with
    | nil =>
      show goIsSpace (lastD w 65) = false
      exact hsp _ (lastD_mem w 65 hne)
    | cons w' t =>
      rw [joinSp_cons_ne w (w' :: t) (by simp)]
      have hJne : joinSp (w' :: t) ≠ [] := by
        rcases hgood' w' (by simp) with ⟨hne', _⟩
        cases t with
        | nil => simpa [joinSp] using hne'
        | cons u t' => simp [joinSp, hne']
      rw [lastD_append_ne w (32 :: joinSp (w' :: t)) 65 (by simp)]
      have : lastD (32 :: joinSp (w' :: t)) 65 = lastD (joinSp (w' :: t)) 65 := by
        obtain ⟨b, t'', hbt⟩ : ∃ b t'', joinSp (w' :: t) = b :: t'' := by
          cases h : joinSp (w' :: t) with
          | nil => exact absurd h hJne
          | cons b t'' => exact ⟨b, t'', rfl⟩
        rw [hbt]; rfl
      rw [this]
      exact ih hgood'

theorem map_id_of_mem : ∀ (l : List Nat) (f : Nat → Nat), (∀ x ∈ l, f x = x) →
    l.map f = l := by
  intro l f
  induction l with
  | nil => intro _; rfl
  | cons a t ih =>
    intro h
    rw [List.map_cons, h a (by simp), ih (fun x hx => h x (List.mem_cons_of_mem a hx))]

/-- The three output-shape facts shared by both decoding strategies:
a normalized string has no double spaces and no leading or trailing
white space. -/
theorem normalizeSp_shape (rs : List Nat) :
    noDoubleSpace (normalizeSp rs) = true ∧ noLeadSpace (normalizeSp rs) = true ∧
      noTrailSpace (normalizeSp rs) = true := by
  have hgood : ∀ w ∈ fields rs, w ≠ [] ∧ ∀ c ∈ w, goIsSpace c = false :=
    fun w hw => ⟨(fields_good rs w hw).1, fun c hc => ((fields_good rs w hw).2 c hc).1⟩
  rcases joinSp_nd_head (fields rs) hgood with ⟨h1, h2⟩
  refine ⟨h1, ?_, ?_⟩
  · unfold noLeadSpace
    rw [show normalizeSp rs = joinSp (fields rs) from rfl]
    simpa using h2
  · unfold noTrailSpace
    rw [show normalizeSp rs = joinSp (fields rs) from rfl]
    simp [joinSp_trail (fields rs) hgood]

/- Lemmas about the UTF-8 codec. -/

theorem accept1_bounds (b0 b1 : Nat) (h : accept1 b0 b1 = true) :
    0x80 ≤ b1 ∧ b1 ≤ 0xBF ∧ (b0 = 0xE0 → 0xA0 ≤ b1) ∧ (b0 = 0xED → b1 ≤ 0x9F) ∧
      (b0 = 0xF0 → 0x90 ≤ b1) ∧ (b0 = 0xF4 → b1 ≤ 0x8F) := by
  unfold accept1 at h
  split_ifs at h with h1 h2 h3 h4 <;>
    simp only [decide_eq_true_eq] at h <;>
    refine ⟨by omega, by omega, ?_, ?_, ?_, ?_⟩ <;> (intro he; omega)

theorem utf8DecodeRune_size_pos (b : Nat) (rest : List Nat) :
    1 ≤ (utf8DecodeRune (b :: rest)).2 := by
  rcases rest with _ | ⟨b1, rest1⟩
  · simp only [utf8DecodeRune]
    split_ifs <;> omega
  rcases rest1 with _ | ⟨b2, rest2⟩
  · simp only [utf8DecodeRune]
    split_ifs <;> omega
  rcases rest2 with _ | ⟨b3, rest3⟩
  · simp only [utf8DecodeRune]
    split_ifs <;> omega
  · simp only [utf8DecodeRune]
    split_ifs <;> omega

theorem decode2_valid (b0 b1 : Nat) (h0 : 0xC2 ≤ b0) (h0' : b0 < 0xE0)
    (h1 : 0x80 ≤ b1) (h1' : b1 ≤ 0xBF) :
    ValidScalar ((b0 - 0xC0) * 64 + (b1 - 0x80)) := by
  unfold ValidScalar
  omega

theorem decode3_valid (b0 b1 b2 : Nat) (h0 : 0xE0 ≤ b0) (h0' : b0 < 0xF0)
    (ha : accept1 b0 b1 = true) (h2 : 0x80 ≤ b2) (h2' : b2 ≤ 0xBF) :
    ValidScalar (((b0 - 0xE0) * 64 + (b1 - 0x80)) * 64 + (b2 - 0x80)) := by
  obtain ⟨g1, g2, g3, g4, g5, g6⟩ := accept1_bounds _ _ ha
  unfold ValidScalar
  by_cases hED : b0 = 0xED
  · have := g4 hED
    omega
  · omega

theorem decode4_valid (b0 b1 b2 b3 : Nat) (h0 : 0xF0 ≤ b0) (h0' : b0 < 0xF5)
    (ha : accept1 b0 b1 = true) (h2 : 0x80 ≤ b2) (h2' : b2 ≤ 0xBF)
    (h3 : 0x80 ≤ b3) (h3' : b3 ≤ 0xBF) :
    ValidScalar ((((b0 - 0xF0) * 64 + (b1 - 0x80)) * 64 + (b2 - 0x80)) * 64 + (b3 - 0x80)) := by
  obtain ⟨g1, g2, g3, g4, g5, g6⟩ := accept1_bounds _ _ ha
  unfold ValidScalar
  by_cases hF0 : b0 = 0xF0
  · have := g5 hF0
    omega
  · by_cases hF4 : b0 = 0xF4
    · have := g6 hF4
      omega
    · omega

theorem utf8DecodeRune_valid (l : List Nat) : ValidScalar (utf8DecodeRune l).1 := by
  rcases l with _ | ⟨b0, rest⟩
  · simp only [utf8DecodeRune]
    unfold ValidScalar
    omega
  rcases rest with _ | ⟨b1, rest1⟩
  · simp only [utf8DecodeRune]
    split_ifs <;> (unfold ValidScalar; omega)
  rcases rest1 with _ | ⟨b2, rest2⟩
  · simp only [utf8DecodeRune]
    split_ifs with h1 h2 h3 hb <;> (unfold ValidScalar; omega)
  rcases rest2 with _ | ⟨b3, rest3⟩
  · simp only [utf8DecodeRune]
    split_ifs with h1 h2 h3 hb h4 hacc <;> try (unfold ValidScalar; omega)
    exact decode3_valid b0 b1 b2 (by omega) (by omega) hacc.1 hacc.2.1 hacc.2.2
  · simp only [utf8DecodeRune]
    split_ifs with h1 h2 h3 hb h4 hacc h5 hacc4 <;> try (unfold ValidScalar; omega)
    · exact decode3_valid b0 b1 b2 (by omega) (by omega) hacc.1 hacc.2.1 hacc.2.2
    · exact decode4_valid b0 b1 b2 b3 (by omega) (by omega) hacc4.1 hacc4.2.1 hacc4.2.2.1
        hacc4.2.2.2.1 hacc4.2.2.2.2

theorem utf8_decode_encode (r : Nat) (h : ValidScalar r) (tl : List Nat) :
    utf8DecodeRune (utf8EncodeRune r ++ tl) = (r, (utf8EncodeRune r).length) := by
  unfold ValidScalar at h
  by_cases h1 : r < 0x80
  · have e : utf8EncodeRune r = [r] := by
      unfold utf8EncodeRune
      rw [if_pos h1]
    rw [e]
    simp only [List.cons_append, List.nil_append, List.length_cons, List.length_nil,
      utf8DecodeRune]
    rw [if_pos h1]
  by_cases h2 : r < 0x800
  · have e : utf8EncodeRune r = [0xC0 + r / 64, 0x80 + r % 64] := by
      unfold utf8EncodeRune
      rw [if_neg h1, if_pos h2]
    rw [e]
    simp only [List.cons_append, List.nil_append, List.length_cons, List.length_nil,
      utf8DecodeRune]
    rw [if_neg (by omega), if_neg (by omega), if_pos (by omega),
      if_pos (show 0x80 ≤ 0x80 + r % 64 ∧ 0x80 + r % 64 ≤ 0xBF by omega)]
    rw [Prod.mk.injEq]
    exact ⟨by omega, rfl⟩
  by_cases h3 : r < 0x10000
  · have e : utf8EncodeRune r = [0xE0 + r / 4096, 0x80 + r / 64 % 64, 0x80 + r % 64] := by
      unfold utf8EncodeRune
      rw [if_neg h1, if_neg h2, if_pos h3]
    have hns : r < 0xD800 ∨ 0xE000 ≤ r := by
      rcases h with h | ⟨ha, _⟩
      · exact Or.inl h
      · exact Or.inr ha
    have hacc : accept1 (0xE0 + r / 4096) (0x80 + r / 64 % 64) = true := by
      unfold accept1
      split_ifs with hE hD hF0 hF4 <;> simp only [decide_eq_true_eq] <;> omega
    rw [e]
    simp only [List.cons_append, List.nil_append, List.length_cons, List.length_nil,
      utf8DecodeRune]
    rw [if_neg (by omega), if_neg (by omega), if_neg (by omega), if_pos (by omega),
      if_pos (show accept1 (0xE0 + r / 4096) (0x80 + r / 64 % 64) = true ∧
        0x80 ≤ 0x80 + r % 64 ∧ 0x80 + r % 64 ≤ 0xBF from ⟨hacc, by omega, by omega⟩)]
    rw [Prod.mk.injEq]
    exact ⟨by omega, rfl⟩
  · have hr : r ≤ 0x10FFFF := by
      rcases h with h | ⟨_, hb⟩
      · omega
      · exact hb
    have e : utf8EncodeRune r =
        [0xF0 + r / 262144, 0x80 + r / 4096 % 64, 0x80 + r / 64 % 64, 0x80 + r % 64] := by
      unfold utf8EncodeRune
      rw [if_neg h1, if_neg h2, if_neg h3]
    have hacc : accept1 (0xF0 + r / 262144) (0x80 + r / 4096 % 64) = true := by
      unfold accept1
      split_ifs with hE hD hF0 hF4 <;> simp only [decide_eq_true_eq] <;> omega
    rw [e]
    simp only [List.cons_append, List.nil_append, List.length_cons, List.length_nil,
      utf8DecodeRune]
    rw [if_neg (by omega), if_neg (by omega), if_neg (by omega), if_neg (by omega),
      if_pos (by omega),
      if_pos (show accept1 (0xF0 + r / 262144) (0x80 + r / 4096 % 64) = true ∧
        0x80 ≤ 0x80 + r / 64 % 64 ∧ 0x80 + r / 64 % 64 ≤ 0xBF ∧
        0x80 ≤ 0x80 + r % 64 ∧ 0x80 + r % 64 ≤ 0xBF from
        ⟨hacc, by omega, by omega, by omega, by omega⟩)]
    rw [Prod.mk.injEq]
    exact ⟨by omega, rfl⟩

theorem decodeLoopF_step (p : Nat → Bool) (d : List Nat) (f : Nat) (hne : d ≠ []) :
    decodeLoopF p (f + 1) d =
      if (utf8DecodeRune d).1 = 0xFFFD then decodeLoopF p f (d.drop 1)
      else if p (utf8DecodeRune d).1 then
        (utf8DecodeRune d).1 :: decodeLoopF p f (d.drop (utf8DecodeRune d).2)
      else decodeLoopF p f (d.drop (utf8DecodeRune d).2) := by
  cases d with
  | nil => exact absurd rfl hne
  | cons b rest => rfl

theorem decodeLoopF_sound (p : Nat → Bool) : ∀ (fuel : Nat) (data : List Nat) (r : Nat),
    r ∈ decodeLoopF p fuel data → p r = true ∧ ValidScalar r ∧ r ≠ 0xFFFD := by
  intro fuel
  induction fuel with
  | zero => intro data r hr; simp [decodeLoopF] at hr
  | succ f ih =>
    intro data r hr
    cases data with
    | nil => simp [decodeLoopF] at hr
    | cons b rest =>
      rw [decodeLoopF_step p (b :: rest) f (by simp)] at hr
      by_cases he : (utf8DecodeRune (b :: rest)).1 = 0xFFFD
      · rw [if_pos he] at hr
        exact ih _ r hr
      · rw [if_neg he] at hr
        by_cases hp : p (utf8DecodeRune (b :: rest)).1
        · rw [if_pos hp] at hr
          rcases List.mem_cons.mp hr with h | h
          · subst h
            exact ⟨hp, utf8DecodeRune_valid _, he⟩
          · exact ih _ r h
        · rw [if_neg hp] at hr
          exact ih _ r hr

theorem utf8EncodeRune_len (r : Nat) :
    1 ≤ (utf8EncodeRune r).length ∧ (utf8EncodeRune r).length ≤ 4 := by
  unfold utf8EncodeRune
  split_ifs <;> simp

theorem decodeLoopF_encodeBytes (p : Nat → Bool) : ∀ (rs : List Nat) (fuel : Nat),
    (∀ r ∈ rs, ValidScalar r ∧ r ≠ 0xFFFD ∧ p r = true) →
    (encodeBytes rs).length ≤ fuel →
    decodeLoopF p fuel (encodeBytes rs) = rs := by
  intro rs
  induction rs with
  | nil =>
    intro fuel _ _
    cases fuel <;> simp [decodeLoopF, encodeBytes]
  | cons r rs ih =>
    intro fuel hall hlen
    rcases hall r (by simp) with ⟨hv, hne, hp⟩
    have hd := utf8_decode_encode r hv (encodeBytes rs)
    have hel := utf8EncodeRune_len r
    have heq : encodeBytes (r :: rs) = utf8EncodeRune r ++ encodeBytes rs := rfl
    have hlen2 : (encodeBytes (r :: rs)).length =
        (utf8EncodeRune r).length + (encodeBytes rs).length := by
      rw [heq, List.length_append]
    obtain ⟨f, rfl⟩ : ∃ f, fuel = f + 1 := by
      cases fuel with
      | zero => omega
      | succ f => exact ⟨f, rfl⟩
    have hne2 : encodeBytes (r :: rs) ≠ [] := by
      intro hcon
      rw [hcon] at hlen2
      simp at hlen2
      omega
    rw [decodeLoopF_step p _ f hne2, heq, hd]
    rw [if_neg (by simpa using hne), if_pos (by simpa using hp)]
    simp only [List.drop_left]
    rw [ih f (fun x hx => hall x (List.mem_cons_of_mem r hx)) (by omega)]

theorem encodeBytes_ascii : ∀ (l : List Nat), (∀ x ∈ l, x < 0x80) → encodeBytes l = l := by
  intro l
  induction l with
  | nil => intro _; rfl
  | cons a t ih =>
    intro h
    show utf8EncodeRune a ++ encodeBytes t = a :: t
    rw [show utf8EncodeRune a = [a] by unfold utf8EncodeRune; rw [if_pos (h a (by simp))]]
    rw [ih (fun x hx => h x (List.mem_cons_of_mem a hx))]
    rfl

theorem decodeUTF8_mem (p : Nat → Bool) (data : List Nat) (r : Nat)
    (hr : r ∈ decodeUTF8 p data) :
    r = 32 ∨ (p r = true ∧ ValidScalar r ∧ r ≠ 0xFFFD) := by
  unfold decodeUTF8 at hr
  rcases normalizeSp_mem _ r hr with h32 | ⟨hin, _⟩
  · exact Or.inl h32
  · exact Or.inr (decodeLoopF_sound p _ _ r hin)

theorem decodeUTF8_idem (p : Nat → Bool) (hp : p 32 = true) (data : List Nat) :
    decodeUTF8 p (encodeBytes (decodeUTF8 p data)) = decodeUTF8 p data := by
  have hall : ∀ r ∈ decodeUTF8 p data, ValidScalar r ∧ r ≠ 0xFFFD ∧ p r = true := by
    intro r hr
    rcases decodeUTF8_mem p data r hr with h32 | ⟨h1, h2, h3⟩
    · subst h32
      exact ⟨Or.inl (by omega), by omega, hp⟩
    · exact ⟨h2, h3, h1⟩
  show normalizeSp (decodeLoopF p (encodeBytes (decodeUTF8 p data)).length
    (encodeBytes (decodeUTF8 p data))) = decodeUTF8 p data
  rw [decodeLoopF_encodeBytes p (decodeUTF8 p data) _ hall (le_refl _)]
  show normalizeSp (normalizeSp (decodeLoopF p data.length data)) =
    normalizeSp (decodeLoopF p data.length data)
  exact normalizeSp_idem _

theorem filterPrintable_mem (data : List Nat) (r : Nat) (hr : r ∈ filterPrintable data) :
    32 ≤ r ∧ r ≤ 126 := by
  unfold filterPrintable at hr
  rcases normalizeSp_mem _ r hr with h32 | ⟨hin, _⟩
  · omega
  · rcases List.mem_map.mp hin with ⟨b, _, hb⟩
    rw [← hb]
    unfold asciiPrintable asciiMax
    split_ifs with h
    · exact h
    · omega

theorem filterPrintable_idem (data : List Nat) :
    filterPrintable (filterPrintable data) = filterPrintable data := by
  have h1 : (filterPrintable data).map
      (fun b => if asciiPrintable ≤ b ∧ b ≤ asciiMax then b else 32) = filterPrintable data := by
    refine map_id_of_mem _ _ (fun x hx => ?_)
    have := filterPrintable_mem data x hx
    rw [if_pos]
    unfold asciiPrintable asciiMax
    omega
  show normalizeSp ((filterPrintable data).map _) = filterPrintable data
  rw [h1]
  unfold filterPrintable
  exact normalizeSp_idem _

theorem encodeBytes_filterPrintable (data : List Nat) :
    encodeBytes (filterPrintable data) = filterPrintable data :=
  encodeBytes_ascii _ (fun x hx => by have := filterPrintable_mem data x hx; omega)

/- Lemmas about the Candidate Extractor. -/

theorem getD_drop : ∀ (rs : List Nat) (i j d : Nat),
    (rs.drop i).getD j d = rs.getD (i + j) d := by
  intro rs
  induction rs with
  | nil => intro i j d; simp
  | cons a t ih =>
    intro i j d
    cases i with
    | zero => simp
    | succ i' =>
      rw [List.drop_succ_cons, ih i' j d]
      rw [show i' + 1 + j = (i' + j) + 1 by omega]
      rfl

theorem takeRun_le (c : Nat → Bool) : ∀ (l : List Nat), takeRun c l ≤ l.length := by
  intro l
  induction l with
  | nil => simp [takeRun]
  | cons a t ih =>
    unfold takeRun
    split_ifs <;> simp <;> omega

theorem takeRun_in (c : Nat → Bool) : ∀ (l : List Nat) (j : Nat), j < takeRun c l →
    c (l.getD j 0) = true := by
  intro l
  induction l with
  | nil => intro j hj; simp [takeRun] at hj
  | cons a t ih =>
    intro j hj
    unfold takeRun at hj
    by_cases hc : c a
    · rw [if_pos hc] at hj
      cases j with
      | zero => simpa using hc
      | succ j' => exact ih j' (by omega)
    · rw [if_neg hc] at hj
      omega

theorem takeRun_after (c : Nat → Bool) : ∀ (l : List Nat),
    takeRun c l < l.length → c (l.getD (takeRun c l) 0) = false := by
  intro l
  induction l with
  | nil => intro h; simp [takeRun] at h
  | cons a t ih =>
    intro h
    unfold takeRun at h ⊢
    by_cases hc : c a
    · rw [if_pos hc] at h ⊢
      have := ih (by simpa using h)
      simpa using this
    · rw [if_neg hc]
      simpa using hc

theorem takeRun_eq (c : Nat → Bool) : ∀ (l : List Nat) (k : Nat),
    (∀ j, j < k → c (l.getD j 0) = true) →
    (k = l.length ∨ (k < l.length ∧ c (l.getD k 0) = false)) →
    takeRun c l = k := by
  intro l
  induction l with
  | nil =>
    intro k _ hend
    rcases hend with h | ⟨h1, _⟩ <;> simp_all [takeRun]
  | cons a t ih =>
    intro k hin hend
    cases k with
    | zero =>
      rcases hend with h | ⟨_, hc⟩
      · simp at h
      · unfold takeRun
        rw [if_neg (by simpa using hc)]
    | succ k' =>
      have hc : c a = true := by simpa using hin 0 (by omega)
      unfold takeRun
      rw [if_pos hc]
      have : takeRun c t = k' := by
        apply ih k' (fun j hj => by simpa using hin (j + 1) (by omega))
        rcases hend with h | ⟨h1, h2⟩
        · left; simpa using h
        · right
          constructor
          · simpa using h1
          · simpa using h2
      omega

theorem all_take_of_getD (c : Nat → Bool) : ∀ (l : List Nat) (k : Nat), k ≤ l.length →
    (∀ j, j < k → c (l.getD j 0) = true) → (l.take k).all c = true := by
  intro l
  induction l with
  | nil => intro k hk _; simp_all
  | cons a t ih =>
    intro k hk hin
    cases k with
    | zero => simp
    | succ k' =>
      rw [List.take_succ_cons, List.all_cons, Bool.and_eq_true]
      refine ⟨by simpa using hin 0 (by omega), ?_⟩
      exact ih k' (by simpa using hk) (fun j hj => by simpa using hin (j + 1) (by omega))

theorem getD_of_all_take (c : Nat → Bool) : ∀ (l : List Nat) (k : Nat),
    (l.take k).all c = true → ∀ j, j < k → j < l.length → c (l.getD j 0) = true := by
  intro l
  induction l with
  | nil => intro k _ j _ hj; simp at hj
  | cons a t ih =>
    intro k hall j hjk hjl
    cases k with
    | zero => omega
    | succ k' =>
      rw [List.take_succ_cons, List.all_cons, Bool.and_eq_true] at hall
      cases j with
      | zero => simpa using hall.1
      | succ j' => exact ih k' hall.2 j' (by omega) (by simpa using hjl)

theorem runStarts_mem (c : Nat → Bool) (rs : List Nat) (i : Nat) :
    i ∈ runStarts c rs ↔ i < rs.length ∧ c (rs.getD i 0) = true ∧
      (i = 0 ∨ c (rs.getD (i - 1) 0) = false) := by
  unfold runStarts
  rw [List.mem_filter, List.mem_range]
  constructor
  · rintro ⟨h1, h2⟩
    rw [Bool.and_eq_true, Bool.or_eq_true] at h2
    refine ⟨h1, h2.1, ?_⟩
    rcases h2.2 with h | h
    · exact Or.inl (by simpa using h)
    · exact Or.inr (by simpa using h)
  · rintro ⟨h1, h2, h3⟩
    refine ⟨h1, ?_⟩
    rw [Bool.and_eq_true, Bool.or_eq_true]
    refine ⟨h2, ?_⟩
    rcases h3 with h | h
    · exact Or.inl (by simpa using h)
    · exact Or.inr (by simpa using h)

theorem runStart_sep (c : Nat → Bool) (rs : List Nat) (i j : Nat)
    (hi : i ∈ runStarts c rs) (hj : j ∈ runStarts c rs) (hij : i < j) :
    i + runLen c rs i ≤ j := by
  by_contra hcon
  push_neg at hcon
  rcases (runStarts_mem c rs j).mp hj with ⟨hjl, _, hj3⟩
  have hj0 : j ≠ 0 := by omega
  have hprev : c (rs.getD (j - 1) 0) = false := by
    rcases hj3 with h | h
    · exact absurd h hj0
    · exact h
  have hin : c ((rs.drop i).getD (j - 1 - i) 0) = true := by
    apply takeRun_in c (rs.drop i) (j - 1 - i)
    unfold runLen at hcon
    omega
  rw [getD_drop] at hin
  rw [show i + (j - 1 - i) = j - 1 by omega] at hin
  rw [hprev] at hin
  exact Bool.false_ne_true hin

theorem msgSpans_mem_start (c : Nat → Bool) (rs : List Nat) (s : Nat × Nat)
    (hs : s ∈ msgSpans c rs) :
    s.1 ∈ runStarts c rs ∧ s.2 = runLen c rs s.1 ∧ minMsgLength ≤ s.2 := by
  unfold msgSpans at hs
  rw [List.mem_filter] at hs
  rcases hs with ⟨hmap, hlen⟩
  rcases List.mem_map.mp hmap with ⟨i, hi, hei⟩
  subst hei
  exact ⟨hi, rfl, by simpa using hlen⟩

theorem msgSpans_sound (c : Nat → Bool) (rs : List Nat) (s : Nat × Nat)
    (hs : s ∈ msgSpans c rs) : minMsgLength ≤ s.2 ∧ isMaximalRun c rs s = true := by
  rcases msgSpans_mem_start c rs s hs with ⟨hstart, hlen, hmin⟩
  rcases (runStarts_mem c rs s.1).mp hstart with ⟨h1, h2, h3⟩
  refine ⟨hmin, ?_⟩
  unfold isMaximalRun
  have hle : runLen c rs s.1 ≤ rs.length - s.1 := by
    have := takeRun_le c (rs.drop s.1)
    unfold runLen
    simpa using this
  rw [Bool.and_eq_true, Bool.and_eq_true, Bool.and_eq_true, Bool.and_eq_true]
  refine ⟨⟨⟨⟨?_, ?_⟩, ?_⟩, ?_⟩, ?_⟩
  · simp only [decide_eq_true_eq]
    unfold minMsgLength at hmin
    omega
  · simp only [decide_eq_true_eq]
    omega
  · rw [hlen]
    apply all_take_of_getD
    · simpa using hle
    · intro j hj
      exact takeRun_in c (rs.drop s.1) j hj
  · rw [Bool.or_eq_true]
    by_cases hend : s.1 + s.2 = rs.length
    · exact Or.inl (by simpa using hend)
    · right
      rw [hlen]
      have hlt : runLen c rs s.1 < (rs.drop s.1).length := by
        simp only [List.length_drop]
        omega
      have := takeRun_after c (rs.drop s.1) hlt
      unfold runLen at this ⊢
      rw [getD_drop] at this
      simpa using this
  · rw [Bool.or_eq_true]
    rcases h3 with h | h
    · exact Or.inl (by simpa using h)
    · exact Or.inr (by simpa using h)

theorem msgSpans_complete (c : Nat → Bool) (rs : List Nat) (s : Nat × Nat)
    (hmax : isMaximalRun c rs s = true) (hmin : minMsgLength ≤ s.2) :
    s ∈ msgSpans c rs := by
  unfold isMaximalRun at hmax
  rw [Bool.and_eq_true, Bool.and_eq_true, Bool.and_eq_true, Bool.and_eq_true] at hmax
  rcases hmax with ⟨⟨⟨⟨hpos, hin2⟩, hall⟩, hafter⟩, hbefore⟩
  simp only [decide_eq_true_eq] at hpos hin2
  have hget : ∀ j, j < s.2 → c (rs.getD (s.1 + j) 0) = true := by
    intro j hj
    have := getD_of_all_take c (rs.drop s.1) s.2 hall j hj (by simp; omega)
    rwa [getD_drop] at this
  have hrl : runLen c rs s.1 = s.2 := by
    unfold runLen
    apply takeRun_eq
    · intro j hj
      rw [getD_drop]
      exact hget j hj
    · by_cases hend : s.1 + s.2 = rs.length
      · left
        simp only [List.length_drop]
        omega
      · right
        rw [Bool.or_eq_true] at hafter
        have hcf : c (rs.getD (s.1 + s.2) 0) = false := by
          rcases hafter with h | h
          · simp only [decide_eq_true_eq] at h
            exact absurd h hend
          · simpa using h
        constructor
        · simp only [List.length_drop]
          omega
        · rw [getD_drop]
          exact hcf
  have hstart : s.1 ∈ runStarts c rs := by
    rw [runStarts_mem]
    refine ⟨by omega, by simpa using hget 0 (by omega), ?_⟩
    rw [Bool.or_eq_true] at hbefore
    rcases hbefore with h | h
    · exact Or.inl (by simpa using h)
    · exact Or.inr (by simpa using h)
  unfold msgSpans
  rw [List.mem_filter]
  constructor
  · rw [List.mem_map]
    exact ⟨s.1, hstart, by rw [hrl]⟩
  · simpa using hmin

theorem runStarts_sorted (c : Nat → Bool) (rs : List Nat) :
    (runStarts c rs).Pairwise (· < ·) := by
  unfold runStarts
  exact (List.pairwise_lt_range _).filter _

theorem msgSpans_pairwise (c : Nat → Bool) (rs : List Nat) :
    (msgSpans c rs).Pairwise (fun a b => a.1 + a.2 ≤ b.1) := by
  unfold msgSpans
  apply List.Pairwise.filter
  rw [List.pairwise_map]
  refine (runStarts_sorted c rs).imp_of_mem ?_
  intro a b ha hb hab
  exact runStart_sep c rs a b ha hb hab

/- Lemmas about the Message Classifier. -/

theorem fields_append_word (s w : List Nat) (hne : w ≠ [])
    (hsp : ∀ c ∈ w, goIsSpace c = false) :
    fields (s ++ 32 :: w) = fields s ++ [w] := by
  unfold fields
  rw [fieldsAux_sep]
  rw [show fieldsAux w [] = fields w from rfl, fields_single w hne hsp]

theorem letterCount_append (iL : Nat → Bool) (s t : List Nat) :
    letterCount iL (s ++ t) = letterCount iL s + letterCount iL t := by
  unfold letterCount
  rw [List.countP_append]

theorem totalChars_append (s t : List Nat) :
    totalChars (s ++ t) = totalChars s + totalChars t := by
  unfold totalChars
  rw [List.countP_append]

theorem totalChars_cons32 (w : List Nat) : totalChars (32 :: w) = totalChars w := by
  unfold totalChars
  rw [List.countP_cons]
  simp [goIsSpace]

theorem totalChars_pos_of_word (s : List Nat) (hw : 1 ≤ (fields s).length) :
    0 < totalChars s := by
  obtain ⟨w, t, hft⟩ : ∃ w t, fields s = w :: t := by
    cases h : fields s with
    | nil => rw [h] at hw; simp at hw
    | cons w t => exact ⟨w, t, rfl⟩
  have hwmem : w ∈ fields s := by rw [hft]; simp
  rcases fields_good s w hwmem with ⟨hne, hchar⟩
  obtain ⟨c, w', rfl⟩ : ∃ c w', w = c :: w' := by
    cases w with
    | nil => exact absurd rfl hne
    | cons c w' => exact ⟨c, w', rfl⟩
  rcases hchar c (by simp) with ⟨hsp, hcs⟩
  unfold totalChars
  rw [List.countP_pos_iff]
  exact ⟨c, hcs, by simp [hsp]⟩

theorem fields_all_space (s : List Nat) (h : ∀ r ∈ s, goIsSpace r = true) :
    fields s = [] := by
  unfold fields
  induction s with
  | nil => rfl
  | cons r t ih =>
    simp only [fieldsAux]
    rw [if_pos (h r (by simp)), if_pos trivial]
    exact ih (fun x hx => h x (List.mem_cons_of_mem r hx))

/- Lemmas about the Scan Orchestrator. -/

theorem count_flatMap (l : List Int) (f : Int → List Event) (e : Event) :
    (l.flatMap f).count e = (l.map (fun n => (f n).count e)).sum := by
  induction l with
  | nil => rfl
  | cons a t ih =>
    rw [List.flatMap_cons, List.count_append, List.map_cons, List.sum_cons, ih]

theorem sum_indicator (g : Int → Nat) (N : Int) : ∀ (l : List Int), N ∈ l → l.Nodup →
    (∀ M ∈ l, M ≠ N → g M = 0) → (l.map g).sum = g N := by
  intro l
  induction l with
  | nil => intro h; simp at h
  | cons a t ih =>
    intro hN hnd h0
    rw [List.map_cons, List.sum_cons]
    by_cases ha : a = N
    · subst ha
      have hz : ∀ M ∈ t, g M = 0 := by
        intro M hM
        refine h0 M (List.mem_cons_of_mem a hM) ?_
        intro hMa
        subst hMa
        exact (List.nodup_cons.mp hnd).1 hM
      have : (t.map g).sum = 0 := by
        apply List.sum_eq_zero
        intro x hx
        rcases List.mem_map.mp hx with ⟨M, hM, hgx⟩
        rw [← hgx]
        exact hz M hM
      rw [this]
      omega
    · rw [h0 a (by simp) ha]
      have hNt : N ∈ t := by
        rcases List.mem_cons.mp hN with h | h
        · exact absurd h.symm ha
        · exact h
      rw [ih hNt (List.nodup_cons.mp hnd).2 (fun M hM h' => h0 M (List.mem_cons_of_mem a hM) h')]
      simp

theorem mem_descRange (endB startB N : Int) :
    N ∈ descRange endB startB ↔ startB ≤ N ∧ N ≤ endB := by
  unfold descRange
  by_cases h : startB ≤ endB
  · rw [if_pos h]
    simp only [List.mem_map, List.mem_range]
    constructor
    · rintro ⟨i, hi, rfl⟩
      omega
    · rintro ⟨h1, h2⟩
      exact ⟨(endB - N).toNat, by omega, by omega⟩
  · rw [if_neg h]
    simp only [List.not_mem_nil, false_iff]
    omega

theorem nodup_descRange (endB startB : Int) : (descRange endB startB).Nodup := by
  unfold descRange
  split_ifs with h
  · refine List.Nodup.map_on ?_ (List.nodup_range _)
    intro i hi j hj hij
    simp only [List.mem_range] at hi hj
    omega
  · exact List.nodup_nil

theorem blockReports_shape (iP iL iN : Nat → Bool) (tL : Nat → Nat) (n : Int)
    (txs : List Tx) : ∀ ev ∈ blockReports iP iL iN tL n txs,
    ∃ h m, ev = Event.txReport n h m := by
  intro ev hev
  unfold blockReports at hev
  rcases List.mem_filterMap.mp hev with ⟨tx, _, htx⟩
  split_ifs at htx
  exact ⟨tx.hash, analyzeTransactionA iP iL iN tL tx.data, (Option.some.inj htx).symm⟩

theorem processBlockA_tag (iP iL iN : Nat → Bool) (tL : Nat → Nat)
    (fetch : Int → Except String (List Tx)) (n : Int) :
    ∀ ev ∈ processBlockA iP iL iN tL fetch n, eventBlock ev = n := by
  intro ev hev
  unfold processBlockA at hev
  cases hf : fetch n with
  | error e =>
    rw [hf] at hev
    rcases List.mem_cons.mp hev with h | h
    · subst h; rfl
    · rcases List.mem_cons.mp h with h' | h'
      · subst h'; rfl
      · simp at h'
  | ok txs =>
    rw [hf] at hev
    rcases List.mem_cons.mp hev with h | h
    · subst h; rfl
    · split_ifs at h with hrep
      · simp at h
      · rcases List.mem_cons.mp h with h' | h'
        · subst h'; rfl
        · rcases blockReports_shape iP iL iN tL n txs ev h' with ⟨hsh, m, hev'⟩
          subst hev'; rfl

theorem processBlockA_count_other (iP iL iN : Nat → Bool) (tL : Nat → Nat)
    (fetch : Int → Except String (List Tx)) (n : Int) (e : Event)
    (hne : eventBlock e ≠ n) : (processBlockA iP iL iN tL fetch n).count e = 0 := by
  rw [List.count_eq_zero]
  intro hmem
  exact hne (processBlockA_tag iP iL iN tL fetch n e hmem)

theorem processBlockA_count_fetchFailed (iP iL iN : Nat → Bool) (tL : Nat → Nat)
    (fetch : Int → Except String (List Tx)) (n : Int) (msg : String)
    (hf : fetch n = .error msg) :
    (processBlockA iP iL iN tL fetch n).count (Event.fetchFailed n) = 1 := by
  unfold processBlockA
  rw [hf]
  simp [List.count_cons]

theorem processBlockA_count_fetched (iP iL iN : Nat → Bool) (tL : Nat → Nat)
    (fetch : Int → Except String (List Tx)) (n : Int) :
    (processBlockA iP iL iN tL fetch n).count (Event.fetched n) = 1 := by
  unfold processBlockA
  cases hf : fetch n with
  | error e => simp [List.count_cons]
  | ok txs =>
    rw [List.count_cons]
    have hz : (if blockReports iP iL iN tL n txs = [] then []
        else Event.blockHeader n :: blockReports iP iL iN tL n txs).count
        (Event.fetched n) = 0 := by
      rw [List.count_eq_zero]
      intro hmem
      split_ifs at hmem with hrep
      · simp at hmem
      · rcases List.mem_cons.mp hmem with h' | h'
        · exact absurd h' (by simp)
        · rcases blockReports_shape iP iL iN tL n txs _ h' with ⟨hsh, m, hev'⟩
          simp at hev'
    rw [hz]
    simp

/- Claim theorems. -/

/-- C1 counterexample: the variant B pipeline (unnamed variant, analyzeTransaction
lines 77-88) applies no signature filter, so a payload beginning with the ERC-20
transfer signature a9059cbb followed by readable text yields candidates and even
accepted messages, contradicting the claim as stated for that pipeline. -/
theorem C1_cex :
    isContractCall ([0xa9, 0x05, 0x9c, 0xbb] ++ strRunes "hello world this is a test") = true ∧
    analyzeCandidatesB ([0xa9, 0x05, 0x9c, 0xbb] ++ strRunes "hello world this is a test") ≠ [] ∧
    acceptedB asciiLetter ([0xa9, 0x05, 0x9c, 0xbb] ++ strRunes "hello world this is a test") ≠ [] :=
  ⟨by decide, by decide, by decide⟩

/-- C1 (amended): in the variant that has the Signature Filter (main.go), every
payload whose first 4 bytes hex-match a Signature Table entry is skipped before
decoding: the pipeline yields zero candidate messages and zero accepted
messages regardless of the remaining bytes. The other variant has no signature
filter and violates the original claim. -/
theorem C1_amended (iP iL iN : Nat → Bool) (tL : Nat → Nat) (data : List Nat)
    (h : isContractCall data = true) :
    analyzeCandidatesA iP iL iN data = [] ∧ analyzeTransactionA iP iL iN tL data = [] := by
  have hc : analyzeCandidatesA iP iL iN data = [] := by
    unfold analyzeCandidatesA
    rw [if_pos (by rw [h]; simp)]
  refine ⟨hc, ?_⟩
  unfold analyzeTransactionA
  rw [hc]
  rfl

/-- C1 witness: a concrete ERC-20 transfer payload is filtered by variant A. -/
theorem C1_witness :
    isContractCall [0xa9, 0x05, 0x9c, 0xbb, 0x00, 0x68, 0x69] = true ∧
    analyzeCandidatesA asciiPrint asciiLetter asciiNum
      [0xa9, 0x05, 0x9c, 0xbb, 0x00, 0x68, 0x69] = [] ∧
    analyzeTransactionA asciiPrint asciiLetter asciiNum asciiToLower
      [0xa9, 0x05, 0x9c, 0xbb, 0x00, 0x68, 0x69] = [] := by
  have h := C1_amended asciiPrint asciiLetter asciiNum asciiToLower
    [0xa9, 0x05, 0x9c, 0xbb, 0x00, 0x68, 0x69] (by decide)
  exact ⟨by decide, h.1, h.2⟩

/-- C2: when fetching block N fails, the variant A scan logs the failure for N
exactly once, fetches every block of the configured descending range exactly
once (so the failed fetch is neither retried nor does it abort the scan), and
the variant B per-block processing of a failed block is exactly one fetch plus
one log line after which the scan continues unchanged with the remaining
blocks. -/
theorem C2_fetch_failure (iP iL iN : Nat → Bool) (tL : Nat → Nat)
    (fetch : Int → Except String (List Tx)) (endB startB N : Int) (msg : String)
    (h1 : startB ≤ N) (h2 : N ≤ endB) (hf : fetch N = .error msg) :
    ((scanA iP iL iN tL fetch endB startB).count (Event.fetchFailed N) = 1 ∧
     (∀ M, startB ≤ M → M ≤ endB →
       (scanA iP iL iN tL fetch endB startB).count (Event.fetched M) = 1)) ∧
    (processBlockB iL fetch N = .ok [.fetched N, .fetchFailed N] ∧
     ∀ ns, scanB iL fetch (N :: ns) =
       Except.map (fun r => Event.fetched N :: Event.fetchFailed N :: r)
         (scanB iL fetch ns)) := by
  refine ⟨⟨?_, ?_⟩, ?_, ?_⟩
  · unfold scanA
    rw [count_flatMap]
    rw [sum_indicator (fun n => (processBlockA iP iL iN tL fetch n).count (Event.fetchFailed N))
      N _ ((mem_descRange endB startB N).mpr ⟨h1, h2⟩) (nodup_descRange endB startB)
      (fun M hM hMN =>
        processBlockA_count_other iP iL iN tL fetch M (Event.fetchFailed N) (Ne.symm hMN))]
    exact processBlockA_count_fetchFailed iP iL iN tL fetch N msg hf
  · intro M hM1 hM2
    unfold scanA
    rw [count_flatMap]
    rw [sum_indicator (fun n => (processBlockA iP iL iN tL fetch n).count (Event.fetched M))
      M _ ((mem_descRange endB startB M).mpr ⟨hM1, hM2⟩) (nodup_descRange endB startB)
      (fun M' hM' hne =>
        processBlockA_count_other iP iL iN tL fetch M' (Event.fetched M) (Ne.symm hne))]
    exact processBlockA_count_fetched iP iL iN tL fetch M
  · unfold processBlockB
    rw [hf]
  · intro ns
    have hpb : processBlockB iL fetch N = .ok [Event.fetched N, Event.fetchFailed N] := by
      unfold processBlockB
      rw [hf]
    have hstep : scanB iL fetch (N :: ns) =
        match processBlockB iL fetch N with
        | .error e => .error e
        | .ok evs =>
          match scanB iL fetch ns with
          | .error e => .error e
          | .ok rest => .ok (evs ++ rest) := rfl
    rw [hstep, hpb]
    cases hs : scanB iL fetch ns with
    | error e => simp [Except.map]
    | ok rest => simp [Except.map]

/-- C2 witness: a concrete oracle failing exactly at block 5 in the range 4..6. -/
theorem C2_witness :
    ((scanA asciiPrint asciiLetter asciiNum asciiToLower
        (fun n => if n = 5 then Except.error "boom" else Except.ok []) 6 4).count
      (Event.fetchFailed 5) = 1 ∧
     (scanA asciiPrint asciiLetter asciiNum asciiToLower
        (fun n => if n = 5 then Except.error "boom" else Except.ok []) 6 4).count
      (Event.fetched 4) = 1) ∧
    processBlockB asciiLetter
      (fun n => if n = 5 then Except.error "boom" else Except.ok []) 5 =
      .ok [Event.fetched 5, Event.fetchFailed 5] := by
  have h := C2_fetch_failure asciiPrint asciiLetter asciiNum asciiToLower
    (fun n => if n = 5 then Except.error "boom" else Except.ok []) 6 4 5 "boom"
    (by decide) (by decide) (by decide)
  exact ⟨⟨h.1.1, h.1.2 4 (by decide) (by decide)⟩, h.2.1⟩

/-- C3: printResults of the unnamed variant calls tx.To().Hex() unconditionally
before the first meaningful message; for a contract-creation transaction the
destination is nil, a nil-pointer dereference (modelled as Except.error), so
reporting a transaction with accepted messages and no destination address
panics instead of succeeding. With a destination present the same transaction
reports fine. -/
theorem C3_bug :
    analyzeTransactionB asciiLetter 1
      ⟨"0xc0ffee", none, strRunes "hello world this is a test"⟩ = .error () ∧
    analyzeTransactionB asciiLetter 1
      ⟨"0xc0ffee", some "0xfeed", strRunes "hello world this is a test"⟩ =
      .ok [Event.txInfo 1 "0xc0ffee" "0xfeed",
           Event.msgLine 1 (strRunes "hello world this is a test")] :=
  ⟨by decide, by decide⟩

/-- C4: both decoding strategies are idempotent: re-decoding the byte
representation of the decoder's own output yields the same string. For the
codepoint strategy this holds for any printability predicate that keeps the
ASCII space. -/
theorem C4_decoder_idem (p : Nat → Bool) (hp : p 32 = true) (data : List Nat) :
    decodeUTF8 p (encodeBytes (decodeUTF8 p data)) = decodeUTF8 p data ∧
    filterPrintable (encodeBytes (filterPrintable data)) = filterPrintable data := by
  refine ⟨decodeUTF8_idem p hp data, ?_⟩
  rw [encodeBytes_filterPrintable]
  exact filterPrintable_idem data

/-- C4 witness: idempotence at a concrete byte sequence containing an invalid
byte, a control byte and a two-byte UTF-8 sequence. -/
theorem C4_witness :
    decodeUTF8 asciiPrint
        (encodeBytes (decodeUTF8 asciiPrint [0xff, 104, 105, 9, 32, 0xc3, 0xa9, 33])) =
      decodeUTF8 asciiPrint [0xff, 104, 105, 9, 32, 0xc3, 0xa9, 33] ∧
    filterPrintable (encodeBytes (filterPrintable [0xff, 104, 105, 9, 32, 0xc3, 0xa9, 33])) =
      filterPrintable [0xff, 104, 105, 9, 32, 0xc3, 0xa9, 33] :=
  C4_decoder_idem asciiPrint (by decide) [0xff, 104, 105, 9, 32, 0xc3, 0xa9, 33]

/-- C5: under either strategy the Byte Decoder output has no control
characters, no white-space run longer than one space, and no leading or
trailing white space; for the codepoint strategy this holds for any
printability predicate that excludes control characters (as unicode.IsPrint
does). -/
theorem C5_decoder_clean (p : Nat → Bool) (hc : ∀ r, p r = true → goIsControl r = false)
    (data : List Nat) :
    (noControl (decodeUTF8 p data) = true ∧ noDoubleSpace (decodeUTF8 p data) = true ∧
     noLeadSpace (decodeUTF8 p data) = true ∧ noTrailSpace (decodeUTF8 p data) = true) ∧
    (noControl (filterPrintable data) = true ∧ noDoubleSpace (filterPrintable data) = true ∧
     noLeadSpace (filterPrintable data) = true ∧ noTrailSpace (filterPrintable data) = true) := by
  constructor
  · refine ⟨?_, ?_, ?_, ?_⟩
    · unfold noControl
      rw [List.all_eq_true]
      intro r hr
      rcases decodeUTF8_mem p data r hr with h32 | ⟨h1, _, _⟩
      · subst h32
        decide
      · simp [hc r h1]
    · exact (normalizeSp_shape (decodeLoopF p data.length data)).1
    · exact (normalizeSp_shape (decodeLoopF p data.length data)).2.1
    · exact (normalizeSp_shape (decodeLoopF p data.length data)).2.2
  · refine ⟨?_, ?_, ?_, ?_⟩
    · unfold noControl
      rw [List.all_eq_true]
      intro r hr
      have hrange := filterPrintable_mem data r hr
      unfold goIsControl
      simp only [Bool.not_eq_true', decide_eq_false_iff_not]
      omega
    · exact (normalizeSp_shape _).1
    · exact (normalizeSp_shape _).2.1
    · exact (normalizeSp_shape _).2.2

/-- C5 witness: the shape facts at a concrete byte sequence with control bytes
and repeated white space. -/
theorem C5_witness :
    (noControl (decodeUTF8 asciiPrint [7, 104, 105, 9, 9, 32, 32, 106]) = true ∧
     noDoubleSpace (decodeUTF8 asciiPrint [7, 104, 105, 9, 9, 32, 32, 106]) = true ∧
     noLeadSpace (decodeUTF8 asciiPrint [7, 104, 105, 9, 9, 32, 32, 106]) = true ∧
     noTrailSpace (decodeUTF8 asciiPrint [7, 104, 105, 9, 9, 32, 32, 106]) = true) ∧
    (noControl (filterPrintable [7, 104, 105, 9, 9, 32, 32, 106]) = true ∧
     noDoubleSpace (filterPrintable [7, 104, 105, 9, 9, 32, 32, 106]) = true ∧
     noLeadSpace (filterPrintable [7, 104, 105, 9, 9, 32, 32, 106]) = true ∧
     noTrailSpace (filterPrintable [7, 104, 105, 9, 9, 32, 32, 106]) = true) :=
  C5_decoder_clean asciiPrint
    (fun r h => by
      unfold asciiPrint at h
      rw [decide_eq_true_eq] at h
      unfold goIsControl
      rw [decide_eq_false_iff_not]
      omega)
    [7, 104, 105, 9, 9, 32, 32, 106]

/-- C6 counterexample: the candidate "a11 e11" has exactly minWords (2) valid
words under the stronger definition (length at least 3, a letter, a vowel) and
no other words, yet the stronger classifier isValidMessage rejects it because
its letter ratio 2/6 is below 0.6 — a gate the claim omits. -/
theorem C6_cex :
    (fields (strRunes "a11 e11")).length = 2 ∧
    (fields (strRunes "a11 e11")).countP (isValidWordA asciiLetter asciiToLower) = 2 ∧
    isValidMessage asciiLetter asciiToLower (strRunes "a11 e11") = false :=
  ⟨by decide, by decide, by decide⟩

/-- C6 (amended): a candidate with exactly minWords (2) valid words is accepted
by the light classifier, and by the strict classifier provided its letter
ratio passes as well; with minWords - 1 (1) valid words both classifiers
reject. -/
theorem C6_boundary (iL : Nat → Bool) (tL : Nat → Nat) (s : List Nat) :
    ((fields s).countP (isValidWordB iL) = minWords → isMeaningful iL s = true) ∧
    ((fields s).countP (isValidWordB iL) = minWords - 1 → isMeaningful iL s = false) ∧
    ((fields s).countP (isValidWordA iL tL) = minWords → ratioCheck iL s = true →
      isValidMessage iL tL s = true) ∧
    ((fields s).countP (isValidWordA iL tL) = minWords - 1 →
      isValidMessage iL tL s = false) := by
  refine ⟨?_, ?_, ?_, ?_⟩
  · intro h
    have hle : (fields s).countP (isValidWordB iL) ≤ (fields s).length :=
      List.countP_le_length _
    unfold isMeaningful
    rw [if_neg (by omega)]
    rw [h]
    decide
  · intro h
    unfold isMeaningful
    split_ifs with hlen
    · rfl
    · rw [h]
      decide
  · intro h hr
    have hle : (fields s).countP (isValidWordA iL tL) ≤ (fields s).length :=
      List.countP_le_length _
    unfold isValidMessage
    rw [if_neg (by omega)]
    rw [hr, Bool.true_and]
    unfold hasValidWords
    rw [h]
    decide
  · intro h
    unfold isValidMessage
    split_ifs with hlen
    · rfl
    · unfold hasValidWords
      rw [h]
      rw [show decide (minWords ≤ minWords - 1) = false from by decide, Bool.and_false]

/-- C6 witness: the boundary cases at concrete candidates "abc def" (two valid
words, accepted by both) and "abc x" (one valid word, rejected by both). -/
theorem C6_witness :
    isMeaningful asciiLetter (strRunes "abc def") = true ∧
    isMeaningful asciiLetter (strRunes "abc x") = false ∧
    isValidMessage asciiLetter asciiToLower (strRunes "abc def") = true ∧
    isValidMessage asciiLetter asciiToLower (strRunes "abc x") = false :=
  ⟨(C6_boundary asciiLetter asciiToLower (strRunes "abc def")).1 (by decide),
   (C6_boundary asciiLetter asciiToLower (strRunes "abc x")).2.1 (by decide),
   (C6_boundary asciiLetter asciiToLower (strRunes "abc def")).2.2.1 (by decide) (by decide),
   (C6_boundary asciiLetter asciiToLower (strRunes "abc x")).2.2.2 (by decide)⟩

/-- C7 counterexample: "abc def" is accepted by the strict classifier, the
appended word a11111111111111111 is a valid word as the claim defines it
(no white space, length at least 3, contains a vowel), yet the extended
candidate is rejected: the appended word dilutes the letter ratio below 0.6. -/
theorem C7_cex :
    isValidMessage asciiLetter asciiToLower (strRunes "abc def") = true ∧
    ((strRunes "a11111111111111111").all (fun c => !goIsSpace c) = true ∧
     minWordLength ≤ byteLen (strRunes "a11111111111111111") ∧
     hasVowel asciiToLower (strRunes "a11111111111111111") = true) ∧
    isValidMessage asciiLetter asciiToLower
      (strRunes "abc def" ++ 32 :: strRunes "a11111111111111111") = false :=
  ⟨by decide, ⟨by decide, by decide, by decide⟩, by decide⟩

/-- C7 (amended): appending one additional valid word (space separated, no
white space inside, length at least minWordLength, containing a vowel) keeps a
candidate accepted by the light classifier; for the strict classifier it keeps
the candidate accepted provided the appended word itself has letter ratio at
least 0.6, which restores the claim the letter-ratio gate breaks. -/
theorem C7_monotone (iL : Nat → Bool) (tL : Nat → Nat) (s w : List Nat)
    (hw : w.all (fun c => !goIsSpace c) = true)
    (hlen : minWordLength ≤ byteLen w) (hv : hasVowel tL w = true) :
    (isMeaningful iL s = true → isMeaningful iL (s ++ 32 :: w) = true) ∧
    (isValidMessage iL tL s = true → 3 * totalChars w ≤ 5 * letterCount iL w →
      isValidMessage iL tL (s ++ 32 :: w) = true) := by
  have hwne : w ≠ [] := by
    intro hcon
    rw [hcon] at hlen
    unfold byteLen minWordLength at hlen
    simp at hlen
  have hwsp : ∀ c ∈ w, goIsSpace c = false := by
    intro c hc
    have := List.all_eq_true.mp hw c hc
    simpa using this
  have hfields : fields (s ++ 32 :: w) = fields s ++ [w] :=
    fields_append_word s w hwne hwsp
  constructor
  · intro hacc
    unfold isMeaningful at hacc ⊢
    by_cases hlen2 : (fields s).length < minWords
    · rw [if_pos hlen2] at hacc
      exact absurd hacc (by simp)
    · rw [if_neg hlen2] at hacc
      rw [decide_eq_true_eq] at hacc
      rw [hfields, if_neg (by rw [List.length_append]; simp; omega)]
      rw [decide_eq_true_eq, List.countP_append]
      omega
  · intro hacc hratio
    unfold isValidMessage at hacc ⊢
    by_cases hlen2 : (fields s).length < minWords
    · rw [if_pos hlen2] at hacc
      exact absurd hacc (by simp)
    · rw [if_neg hlen2] at hacc
      rw [Bool.and_eq_true] at hacc
      rcases hacc with ⟨hrc, hvw⟩
      rw [hfields, if_neg (by rw [List.length_append]; simp; omega)]
      rw [Bool.and_eq_true]
      constructor
      · unfold ratioCheck at hrc ⊢
        by_cases hz : totalChars s = 0
        · rw [if_pos hz] at hrc
          exact absurd hrc (by simp)
        · rw [if_neg hz] at hrc
          rw [decide_eq_true_eq] at hrc
          have hT : totalChars (s ++ 32 :: w) = totalChars s + totalChars w := by
            rw [totalChars_append, totalChars_cons32]
          have hL : letterCount iL s + letterCount iL w ≤ letterCount iL (s ++ 32 :: w) := by
            rw [letterCount_append]
            unfold letterCount
            rw [List.countP_cons]
            omega
          rw [if_neg (by omega)]
          rw [decide_eq_true_eq]
          omega
      · unfold hasValidWords at hvw ⊢
        rw [decide_eq_true_eq] at hvw ⊢
        rw [List.countP_append]
        omega

/-- C7 witness: appending the valid word "ghi" to the accepted candidate
"abc def" keeps both classifiers accepting. -/
theorem C7_witness :
    isMeaningful asciiLetter (strRunes "abc def" ++ 32 :: strRunes "ghi") = true ∧
    isValidMessage asciiLetter asciiToLower
      (strRunes "abc def" ++ 32 :: strRunes "ghi") = true :=
  ⟨(C7_monotone asciiLetter asciiToLower (strRunes "abc def") (strRunes "ghi")
      (by decide) (by decide) (by decide)).1 (by decide),
   (C7_monotone asciiLetter asciiToLower (strRunes "abc def") (strRunes "ghi")
      (by decide) (by decide) (by decide)).2 (by decide) (by decide)⟩

/-- C8: an all-white-space candidate is rejected by both classifiers before
any division, and whenever the strict classifier reaches its letter-ratio
computation (the word-count guard passed) the denominator totalChars is
positive: the zero-denominator branch is unreachable. -/
theorem C8_no_zero_div (iL : Nat → Bool) (tL : Nat → Nat) (s : List Nat) :
    ((∀ r ∈ s, goIsSpace r = true) →
      isValidMessage iL tL s = false ∧ isMeaningful iL s = false) ∧
    (minWords ≤ (fields s).length → 0 < totalChars s) := by
  constructor
  · intro hsp
    have hf : fields s = [] := fields_all_space s hsp
    constructor
    · unfold isValidMessage
      rw [if_pos (by rw [hf]; decide)]
    · unfold isMeaningful
      rw [if_pos (by rw [hf]; decide)]
  · intro hlen
    apply totalChars_pos_of_word
    unfold minWords at hlen
    omega

/-- C8 witness: a concrete all-white-space candidate is rejected, and a
concrete two-word candidate has a positive denominator. -/
theorem C8_witness :
    isValidMessage asciiLetter asciiToLower [32, 9, 32] = false ∧
    isMeaningful asciiLetter [32, 9, 32] = false ∧
    0 < totalChars (strRunes "ab cd") :=
  ⟨((C8_no_zero_div asciiLetter asciiToLower [32, 9, 32]).1 (by decide)).1,
   ((C8_no_zero_div asciiLetter asciiToLower [32, 9, 32]).1 (by decide)).2,
   (C8_no_zero_div asciiLetter asciiToLower (strRunes "ab cd")).2 (by decide)⟩

/-- C9: the Candidate Extractor (either character class) returns the spans of
pairwise non-overlapping maximal runs: spans are ordered with each ending at
or before the next begins (no position covered twice), every span has length
at least minMsgLength and is a maximal run (longest match: not extendable on
either side), every maximal run of length at least minMsgLength is reported,
and the candidate strings are exactly the substrings at those spans. -/
theorem C9_extractor (c : Nat → Bool) (rs : List Nat) :
    (msgSpans c rs).Pairwise (fun a b => a.1 + a.2 ≤ b.1) ∧
    (∀ s ∈ msgSpans c rs, minMsgLength ≤ s.2 ∧ isMaximalRun c rs s = true) ∧
    (∀ s : Nat × Nat, isMaximalRun c rs s = true → minMsgLength ≤ s.2 →
      s ∈ msgSpans c rs) ∧
    msgMatches c rs = (msgSpans c rs).map (fun s => (rs.drop s.1).take s.2) :=
  ⟨msgSpans_pairwise c rs, fun s hs => msgSpans_sound c rs s hs,
   fun s hmax hmin => msgSpans_complete c rs s hmax hmin, rfl⟩

/-- C9 witness: on "abcd!efghij" the extractor reports the two maximal runs. -/
theorem C9_witness :
    isMaximalRun classB (strRunes "abcd!efghij") (0, 4) = true ∧
    (5, 6) ∈ msgSpans classB (strRunes "abcd!efghij") ∧
    (msgSpans classB (strRunes "abcd!efghij")).Pairwise (fun a b => a.1 + a.2 ≤ b.1) := by
  have h := C9_extractor classB (strRunes "abcd!efghij")
  exact ⟨(h.2.1 (0, 4) (by decide)).2, h.2.2.1 (5, 6) (by decide) (by decide), h.1⟩

/-- C10: the strict classifier refines the light one: every candidate the
strict variant (word count, letter ratio, vowel-requiring valid words)
accepts is also accepted by the light variant (word count and letter-only
valid words), for any letter predicate and lower-case map. -/
theorem C10_strict_refines_light (iL : Nat → Bool) (tL : Nat → Nat) (s : List Nat)
    (h : isValidMessage iL tL s = true) : isMeaningful iL s = true := by
  unfold isValidMessage at h
  by_cases hlen : (fields s).length < minWords
  · rw [if_pos hlen] at h
    exact absurd h (by simp)
  · rw [if_neg hlen] at h
    rw [Bool.and_eq_true] at h
    rcases h with ⟨_, hvw⟩
    unfold hasValidWords at hvw
    rw [decide_eq_true_eq] at hvw
    unfold isMeaningful
    rw [if_neg hlen, decide_eq_true_eq]
    refine le_trans hvw (List.countP_mono_left ?_)
    intro w hwmem hA
    unfold isValidWordA at hA
    unfold isValidWordB
    rw [Bool.and_eq_true, Bool.and_eq_true] at hA
    rw [Bool.and_eq_true]
    exact ⟨hA.1.1, hA.1.2⟩

/-- C10 witness: a concrete candidate accepted by the strict classifier is
accepted by the light one. -/
theorem C10_witness : isMeaningful asciiLetter (strRunes "hello world") = true :=
  C10_strict_refines_light asciiLetter asciiToLower (strRunes "hello world") (by decide)
